import Mathlib

/-!
Shallow embedding of `contracts/cw20-staking/src/state.rs` (cw20-staking).

The contract's persistent state lives in a byte-ordered key-value store
(cosmwasm `Storage`, a BTreeMap in the mock implementation).  Each
`Bucket`/`Map` occupies a disjoint namespace, so we model each bucket as an
association list of (raw key bytes, value) sorted strictly ascending by
byte-lexicographic order, which is the iteration order of `range`.

Bytes are modelled as `Nat` (with a validity predicate `< 256` where it
matters); `u64` and `Uint128` are `Nat` with explicit `2^64` / `2^128`
bounds.  Fallible decoding of stored values is modelled by storing the
decode outcome `Except String Nat` directly; a well-formed store holds only
`.ok` values.
-/

/-- Byte strings: raw storage keys, most significant byte first. -/
abbrev Bytes := List Nat

/-- Lexicographic strict order on byte strings, as `Ord for Vec<u8>` in Rust:
a proper prefix is smaller than its extension. -/
def bytesLt : Bytes → Bytes → Bool
  | [], [] => false
  | [], _ :: _ => true
  | _ :: _, [] => false
  | a :: as, b :: bs => a < b || (a == b && bytesLt as bs)

theorem bytesLt_irrefl (a : Bytes) : bytesLt a a = false := by
  induction a with
  | nil => rfl
  | cons x xs ih => simp [bytesLt, ih]

theorem bytesLt_trans {a b c : Bytes} (hab : bytesLt a b = true)
    (hbc : bytesLt b c = true) : bytesLt a c = true := by
  induction a generalizing b c with
  | nil =>
    cases b with
    | nil => simp [bytesLt] at hab
    | cons y ys =>
      cases c with
      | nil => simp [bytesLt] at hbc
      | cons z zs => simp [bytesLt]
  | cons x xs ih =>
    cases b with
    | nil => simp [bytesLt] at hab
    | cons y ys =>
      cases c with
      | nil => simp [bytesLt] at hbc
      | cons z zs =>
        simp only [bytesLt, Bool.or_eq_true, Bool.and_eq_true, decide_eq_true_eq,
          beq_iff_eq] at hab hbc ⊢
        rcases hab with h1 | ⟨rfl, h1⟩
        · rcases hbc with h2 | ⟨rfl, h2⟩
          · exact Or.inl (Nat.lt_trans h1 h2)
          · exact Or.inl h1
        · rcases hbc with h2 | ⟨rfl, h2⟩
          · exact Or.inl h2
          · exact Or.inr ⟨rfl, ih h1 h2⟩

theorem bytesLt_total {a b : Bytes} (hne : a ≠ b) :
    bytesLt a b = true ∨ bytesLt b a = true := by
  induction a generalizing b with
  | nil =>
    cases b with
    | nil => exact absurd rfl hne
    | cons y ys => exact Or.inl rfl
  | cons x xs ih =>
    cases b with
    | nil => exact Or.inr rfl
    | cons y ys =>
      by_cases hxy : x = y
      · subst hxy
        have hne' : xs ≠ ys := by intro h; exact hne (by rw [h])
        rcases ih hne' with h | h
        · exact Or.inl (by simp [bytesLt, h])
        · exact Or.inr (by simp [bytesLt, h])
      · rcases Nat.lt_or_ge x y with h | h
        · exact Or.inl (by simp [bytesLt, h])
        · have h' : y < x := Nat.lt_of_le_of_ne h (fun e => hxy e.symm)
          exact Or.inr (by simp [bytesLt, h'])

theorem bytesLt_asymm {a b : Bytes} (h : bytesLt a b = true) :
    bytesLt b a = false := by
  cases hba : bytesLt b a with
  | false => rfl
  | true => exact absurd (bytesLt_irrefl a) (by simp [bytesLt_trans h hba])

/-- Fixed-width big-endian byte representation: `natToBE k n` is the `k`-byte
big-endian encoding of `n` (for `n < 256 ^ k`). -/
def natToBE : Nat → Nat → Bytes
  | 0, _ => []
  | k + 1, n => (n / 256 ^ k) :: natToBE k (n % 256 ^ k)

/-- `u64::from_be_bytes`: fold the bytes, most significant first. -/
def beToNat (l : Bytes) : Nat := l.foldl (fun acc b => acc * 256 + b) 0

theorem natToBE_length (k n : Nat) : (natToBE k n).length = k := by
  induction k generalizing n with
  | zero => rfl
  | succ k ih => simp [natToBE, ih]

theorem natToBE_bytes_lt {k n : Nat} (hn : n < 256 ^ k) :
    ∀ b ∈ natToBE k n, b < 256 := by
  induction k generalizing n with
  | zero => intro b hb; simp [natToBE] at hb
  | succ k ih =>
    intro b hb
    simp only [natToBE, List.mem_cons] at hb
    rcases hb with rfl | hb
    · exact Nat.div_lt_of_lt_mul (by rw [← pow_succ]; exact hn)
    · exact ih (Nat.mod_lt _ (Nat.pos_pow_of_pos k (by norm_num))) b hb

/-- Byte-lexicographic order on fixed-width big-endian encodings equals
numeric order: the property §4.5 of the spec relies on. -/
theorem bytesLt_natToBE {k a b : Nat} (ha : a < 256 ^ k) (hb : b < 256 ^ k) :
    bytesLt (natToBE k a) (natToBE k b) = decide (a < b) := by
  induction k generalizing a b with
  | zero =>
    interval_cases a
    interval_cases b
    rfl
  | succ k ih =>
    have hpos : 0 < 256 ^ k := Nat.pos_pow_of_pos k (by norm_num)
    simp only [natToBE, bytesLt,
      ih (Nat.mod_lt _ hpos) (Nat.mod_lt _ hpos)]
    have hda := Nat.div_add_mod a (256 ^ k)
    have hdb := Nat.div_add_mod b (256 ^ k)
    have hma := Nat.mod_lt a hpos
    have hmb := Nat.mod_lt b hpos
    have key : ∀ x y : Nat, x / 256 ^ k < y / 256 ^ k → x < y := by
      intro x y h
      calc x = 256 ^ k * (x / 256 ^ k) + x % 256 ^ k :=
            (Nat.div_add_mod x (256 ^ k)).symm
      _ < 256 ^ k * (x / 256 ^ k) + 256 ^ k :=
            Nat.add_lt_add_left (Nat.mod_lt x hpos) _
      _ = 256 ^ k * (x / 256 ^ k + 1) := by ring
      _ ≤ 256 ^ k * (y / 256 ^ k) := Nat.mul_le_mul_left _ h
      _ ≤ 256 ^ k * (y / 256 ^ k) + y % 256 ^ k := Nat.le_add_right _ _
      _ = y := Nat.div_add_mod y (256 ^ k)
    rcases Nat.lt_trichotomy (a / 256 ^ k) (b / 256 ^ k) with h | h | h
    · simp [h, key a b h]
    · have hq : (a / 256 ^ k == b / 256 ^ k) = true := by simp [h]
      have hQ : 256 ^ k * (a / 256 ^ k) = 256 ^ k * (b / 256 ^ k) := by rw [h]
      have hiff : a < b ↔ a % 256 ^ k < b % 256 ^ k := by omega
      by_cases hm : a % 256 ^ k < b % 256 ^ k
      · simp [hq, hm, hiff.mpr hm, Nat.lt_irrefl, h]
      · have hnb : ¬ a < b := fun hlt => hm (hiff.mp hlt)
        simp [hq, hm, hnb, h]
    · have hab : ¬ a < b := Nat.not_lt_of_gt (key b a h)
      have hq : ¬ a / 256 ^ k < b / 256 ^ k := Nat.lt_asymm h
      have hq' : a / 256 ^ k ≠ b / 256 ^ k := Nat.ne_of_gt h
      simp [hq, hq', hab]

theorem beToNat_natToBE {k n : Nat} (hn : n < 256 ^ k) :
    beToNat (natToBE k n) = n := by
  suffices h : ∀ acc, (natToBE k n).foldl (fun acc b => acc * 256 + b) acc =
      acc * 256 ^ k + n by
    have := h 0
    simpa [beToNat] using this
  induction k generalizing n with
  | zero =>
    intro acc
    interval_cases n
    simp [natToBE]
  | succ k ih =>
    intro acc
    have hpos : 0 < 256 ^ k := Nat.pos_pow_of_pos k (by norm_num)
    simp only [natToBE, List.foldl_cons,
      ih (Nat.mod_lt n hpos)]
    calc (acc * 256 + n / 256 ^ k) * 256 ^ k + n % 256 ^ k
        = acc * (256 ^ k * 256) + (256 ^ k * (n / 256 ^ k) + n % 256 ^ k) := by
          ring
    _ = acc * 256 ^ (k + 1) + n := by rw [Nat.div_add_mod, pow_succ]

/-! ## Byte-ordered bucket store

A cosmwasm `Bucket`'s keyspace, modelled as an association list sorted
strictly ascending by `bytesLt` — the iteration order of the underlying
BTreeMap-backed `Storage`. -/

/-- One bucket's contents: (raw key, value) pairs. The well-formedness
invariant `sortedStore` below says keys are strictly ascending. -/
abbrev Store (V : Type) := List (Bytes × V)

/-- Strictly ascending by byte-lexicographic key order. -/
def sortedStore {V : Type} : Store V → Bool
  | [] => true
  | [_] => true
  | a :: b :: rest => bytesLt a.1 b.1 && sortedStore (b :: rest)

/-- `Bucket::save`: insert or replace at a key, keeping the map sorted. -/
def bSave {V : Type} (s : Store V) (k : Bytes) (v : V) : Store V :=
  match s with
  | [] => [(k, v)]
  | (k', v') :: rest =>
    if bytesLt k k' then (k, v) :: (k', v') :: rest
    else if k == k' then (k, v) :: rest
    else (k', v') :: bSave rest k v

/-- `Storage::remove`: delete the entry at a key (no-op when absent,
`remove` never reports an error). -/
def bRemove {V : Type} (s : Store V) (k : Bytes) : Store V :=
  s.filter (fun e => !(e.1 == k))

/-- Whether key `k` is inside the half-open scan window `[start, stop)`
(unbounded where the bound is `none`). -/
def inRange (start stop : Option Bytes) (k : Bytes) : Bool :=
  (match start with
   | none => true
   | some lo => !bytesLt k lo) &&
  (match stop with
   | none => true
   | some hi => bytesLt k hi)

/-- `range(start, end, order)`: entries with `start ≤ key < end`, iterated
ascending or descending.  On a sorted store the ascending iteration is the
filtered list itself; descending is its reverse. -/
def bRange {V : Type} (s : Store V) (start stop : Option Bytes)
    (descending : Bool) : Store V :=
  let f := s.filter (fun e => inRange start stop e.1)
  if descending then f.reverse else f

theorem sortedStore_cons {V : Type} {e : Bytes × V} {s : Store V}
    (h : sortedStore (e :: s) = true) : sortedStore s = true := by
  cases s with
  | nil => rfl
  | cons b rest =>
    simp only [sortedStore, Bool.and_eq_true] at h
    exact h.2

/-- In a sorted store, the head key is strictly below every key of the
tail. -/
theorem sortedStore_head_lt {V : Type} {e : Bytes × V} {s : Store V}
    (h : sortedStore (e :: s) = true) :
    ∀ e' ∈ s, bytesLt e.1 e'.1 = true := by
  induction s generalizing e with
  | nil => intro e' he'; simp at he'
  | cons b rest ih =>
    simp only [sortedStore, Bool.and_eq_true] at h
    intro e' he'
    rcases List.mem_cons.mp he' with rfl | he'
    · exact h.1
    · exact bytesLt_trans h.1 (ih h.2 e' he')

/-- Every element of `bSave s k v` is either the saved pair or came from
`s`. -/
theorem mem_bSave {V : Type} {s : Store V} {k : Bytes} {v : V}
    {b : Bytes × V} (hb : b ∈ bSave s k v) : b = (k, v) ∨ b ∈ s := by
  induction s with
  | nil =>
    simp only [bSave, List.mem_singleton] at hb
    exact Or.inl hb
  | cons e rest ih =>
    simp only [bSave] at hb
    by_cases h1 : bytesLt k e.1 = true
    · simp only [h1, if_true, List.mem_cons] at hb
      rcases hb with rfl | rfl | hb
      · exact Or.inl rfl
      · exact Or.inr (List.mem_cons_self _ _)
      · exact Or.inr (List.mem_cons_of_mem _ hb)
    · by_cases h2 : (k == e.1) = true
      · simp only [h1, h2, if_true, if_false, Bool.false_eq_true,
          List.mem_cons] at hb
        rcases hb with rfl | hb
        · exact Or.inl rfl
        · exact Or.inr (List.mem_cons_of_mem _ hb)
      · simp only [h1, h2, if_false, Bool.false_eq_true, List.mem_cons] at hb
        rcases hb with rfl | hb
        · exact Or.inr (List.mem_cons_self _ _)
        · rcases ih hb with h | h
          · exact Or.inl h
          · exact Or.inr (List.mem_cons_of_mem _ h)

theorem sortedStore_cons_of {V : Type} {e : Bytes × V} {s : Store V}
    (hs : sortedStore s = true)
    (hlt : ∀ e' ∈ s, bytesLt e.1 e'.1 = true) :
    sortedStore (e :: s) = true := by
  cases s with
  | nil => rfl
  | cons b rest =>
    simp only [sortedStore, Bool.and_eq_true]
    exact ⟨hlt b (List.mem_cons_self _ _), hs⟩

theorem bSave_sorted {V : Type} {s : Store V} (hs : sortedStore s = true)
    (k : Bytes) (v : V) : sortedStore (bSave s k v) = true := by
  induction s with
  | nil => rfl
  | cons e rest ih =>
    simp only [bSave]
    by_cases h1 : bytesLt k e.1 = true
    · simp only [h1, if_true]
      refine sortedStore_cons_of hs ?_
      intro e' he'
      rcases List.mem_cons.mp he' with rfl | he'
      · exact h1
      · exact bytesLt_trans h1 (sortedStore_head_lt hs e' he')
    · by_cases h2 : (k == e.1) = true
      · simp only [h1, h2, if_true, if_false, Bool.false_eq_true]
        have hk : k = e.1 := by simpa using h2
        refine sortedStore_cons_of (sortedStore_cons hs) ?_
        intro e' he'
        exact hk ▸ sortedStore_head_lt hs e' he'
      · simp only [h1, h2, if_false, Bool.false_eq_true]
        have hek : bytesLt e.1 k = true := by
          have hne : k ≠ e.1 := by simpa using h2
          rcases bytesLt_total hne with h | h
          · exact absurd h h1
          · exact h
        refine sortedStore_cons_of (ih (sortedStore_cons hs)) ?_
        intro e' he'
        rcases mem_bSave he' with rfl | he'
        · exact hek
        · exact sortedStore_head_lt hs e' he'

/-! ## Lock info (`insert_lock_info`, `read_user_lock_info`,
`remove_and_accumulate_lock_info`) -/

/-- `Uint128` modulus: amounts are represented in `[0, 2^128)`. -/
def U128MOD : Nat := 2 ^ 128

/-- `u64::to_be_bytes` applied to a timestamp's seconds. -/
def toBeBytes (n : Nat) : Bytes := natToBE 8 (n % 2 ^ 64)

/-- Modelled from the spec: `LockInfo` (`crate::msg`, not under `src/`), §3
"LockEntry": an amount becoming withdrawable at an unlock timestamp in
whole seconds. `unlock_time` models `Timestamp` by its seconds value,
`amount` a `Uint128`. -/
structure LockInfo where
  unlock_time : Nat
  amount : Nat
  deriving Repr, DecidableEq

instance {ε α : Type} [DecidableEq ε] [DecidableEq α] :
    DecidableEq (Except ε α) := fun x y =>
  match x, y with
  | .ok a, .ok b =>
    if h : a = b then .isTrue (h ▸ rfl)
    else .isFalse (fun he => h (Except.ok.inj he))
  | .error a, .error b =>
    if h : a = b then .isTrue (h ▸ rfl)
    else .isFalse (fun he => h (Except.error.inj he))
  | .ok _, .error _ => .isFalse Except.noConfusion
  | .error _, .ok _ => .isFalse Except.noConfusion

/-- A stored bucket value as its decode outcome: `Bucket::<Uint128>` range
iteration deserializes each stored value, which can fail. A well-formed
store holds only `.ok` values. -/
abbrev RawVal := Except String Nat

/-- The lock-info bucket of one `(asset_key, user)` pair
(`Bucket::multilevel(&[LOCK_INFO, asset_key, user])`); multilevel
namespacing keeps distinct pairs in disjoint keyspaces, so each bucket is
modelled independently. -/
abbrev LockStore := Store RawVal

def DEFAULT_LIMIT : Nat := 10

def MAX_LIMIT : Nat := 30

inductive ScanOrder where
  | Ascending
  | Descending
  deriving Repr, DecidableEq

def orderErrMsg : String := "Order must be Ascending or Descending"

/-- `Order::try_from` (cosmwasm_std): only 1 (Ascending) and 2 (Descending)
are valid order codes. -/
def orderTryFrom (n : Int) : Except String ScanOrder :=
  if n = 1 then .ok .Ascending
  else if n = 2 then .ok .Descending
  else .error orderErrMsg

/-- Modelled from the spec: oraiswap's `querier::calc_range_start` (the
`oraiswap` package is not under `src/`); §6 makes `start_after` an
exclusive bound — the first key after the given one is produced by
appending a `1` byte. -/
def calc_range_start (start_after : Option Bytes) : Option Bytes :=
  start_after.map (fun v => v ++ [1])

/-- `insert_lock_info`: save `amount` under the 8-byte big-endian encoding
of the unlock time's seconds. -/
def insert_lock_info (s : LockStore) (unlock_time : Nat) (amount : Nat) :
    LockStore :=
  bSave s (toBeBytes unlock_time) (.ok amount)

/-- Decoding one range item of `read_user_lock_info`: the value's
deserialization error propagates first (`let (time, amount) = item?`),
then the key is cast into `[u8; 8]` and read back as a big-endian `u64`. -/
def decodeLock (e : Bytes × RawVal) : Except String LockInfo :=
  match e.2 with
  | .error msg => .error msg
  | .ok amount =>
    if e.1.length == 8 then .ok ⟨beToNat e.1, amount⟩
    else .error "Casting u64 to timestamp fail"

/-- Rust's `collect::<StdResult<Vec<_>>>`: the first error aborts. -/
def collectExcept {α : Type} : List (Except String α) → Except String (List α)
  | [] => .ok []
  | .error e :: _ => .error e
  | .ok a :: rest =>
    match collectExcept rest with
    | .error e => .error e
    | .ok l => .ok (a :: l)

/-- The raw range scan of `read_user_lock_info` after computing the
`(start, end)` bounds from `start_after` and the order. -/
def lockRange (s : LockStore) (start_after : Option Nat) (ord : ScanOrder) :
    LockStore :=
  match ord with
  | .Ascending =>
    bRange s (calc_range_start (start_after.map toBeBytes)) none false
  | .Descending => bRange s none (start_after.map toBeBytes) true

/-- `read_user_lock_info`. -/
def read_user_lock_info (s : LockStore) (start_after : Option Nat)
    (limit : Option Nat) (order : Option Int) :
    Except String (List LockInfo) :=
  match orderTryFrom (order.getD 1) with
  | .error e => .error e
  | .ok ord =>
    collectExcept
      (((lockRange s start_after ord).take
        ((limit.getD DEFAULT_LIMIT).min MAX_LIMIT)).map decodeLock)

/-- The `while let Some(Ok((time, amount)))` scan inside
`remove_and_accumulate_lock_info`: it stops at the end of the bucket, at
the first entry whose value fails to decode (the `Err` is swallowed by the
`while let`), or at the first key strictly beyond the cutoff; `none`
models the panic of `Uint128` addition on overflow. Returns the keys to
remove and the accumulated total. -/
def drainScan : LockStore → Bytes → Nat → Option (List Bytes × Nat)
  | [], _, acc => some ([], acc)
  | (_, .error _) :: _, _, acc => some ([], acc)
  | (k, .ok a) :: rest, cutoff, acc =>
    if bytesLt cutoff k then some ([], acc)
    else if acc + a < U128MOD then
      match drainScan rest cutoff (acc + a) with
      | none => none
      | some (ks, tot) => some (k :: ks, tot)
    else none

/-- `remove_and_accumulate_lock_info`: scan ascending accumulating matured
amounts, then remove the scanned keys. `none` models a panic (`Uint128`
overflow); otherwise the `StdResult` value (the function body only ever
returns `Ok`) together with the updated bucket. -/
def remove_and_accumulate_lock_info (s : LockStore) (timestamp : Nat) :
    Option (Except String Nat × LockStore) :=
  match drainScan (bRange s none none false) (toBeBytes timestamp) 0 with
  | none => none
  | some (ks, tot) => some (.ok tot, ks.foldl (fun st k => bRemove st k) s)

/-- Keys of the lock bucket are 8 bytes, each a valid `u8`. -/
def validKey (k : Bytes) : Bool :=
  k.length == 8 && k.all (fun b => decide (b < 256))

/-- A stored value that decoded correctly into a `Uint128`. -/
def okVal (r : RawVal) : Bool :=
  match r with
  | .ok a => decide (a < U128MOD)
  | .error _ => false

/-- Well-formed lock bucket: sorted, valid 8-byte keys, decodable amounts. -/
def wfLockStore (s : LockStore) : Bool :=
  sortedStore s && s.all (fun e => validKey e.1 && okVal e.2)

def amountOf : RawVal → Nat
  | .ok a => a
  | .error _ => 0

/-- Sum of the amounts of the entries matured at time `T`. -/
def maturedSum (s : LockStore) (T : Nat) : Nat :=
  ((s.filter (fun e => decide (beToNat e.1 ≤ T))).map
    (fun e => amountOf e.2)).sum

/-! ## Snapshot maps (`STAKED_BALANCES`, `STAKED_TOTAL`) -/

/-- State of one key of a cw-storage-plus `SnapshotMap` (the type of the
`STAKED_BALANCES` and `STAKED_TOTAL` constants, `Strategy::EveryBlock`):
the primary (current) value plus the changelog, whose entry at height `h`
records the value the key had just before the first write at `h`. The
changelog list is kept in strictly increasing height order (its storage
key is the big-endian height), with at most one entry per height. -/
structure SnapState (V : Type) where
  primary : Option V
  changelog : List (Nat × Option V)
  deriving Repr, DecidableEq

def snapEmpty {V : Type} : SnapState V := ⟨none, []⟩

/-- Is there already a changelog entry at height `h`? -/
def hasChangelog {V : Type} (cl : List (Nat × Option V)) (h : Nat) : Bool :=
  cl.any (fun e => e.1 == h)

/-- Insert a changelog entry keeping heights ascending (callers only insert
heights that are not yet present). -/
def insertChangelog {V : Type} :
    List (Nat × Option V) → Nat → Option V → List (Nat × Option V)
  | [], h, old => [(h, old)]
  | e :: rest, h, old =>
    if h < e.1 then (h, old) :: e :: rest
    else e :: insertChangelog rest h old

/-- `SnapshotMap::save` at height `h` with `Strategy::EveryBlock`: if no
changelog entry exists at `h` yet, record the current primary value as the
`old` snapshot for height `h`; then overwrite the primary value. -/
def snap_save {V : Type} (s : SnapState V) (v : V) (h : Nat) : SnapState V :=
  { primary := some v
    changelog :=
      if hasChangelog s.changelog h then s.changelog
      else insertChangelog s.changelog h s.primary }

/-- `SnapshotMap::may_load_at_height`: the first changelog entry (ascending)
with height ≥ the queried height supplies its `old` snapshot; with no such
entry the current primary value is returned. -/
def may_load_at_height {V : Type} (s : SnapState V) (h : Nat) : Option V :=
  match s.changelog.find? (fun e => decide (h ≤ e.1)) with
  | some e => e.2
  | none => s.primary

/-! ## Staker registry (`stakers_store` buckets) -/

/-- The stakers bucket of one asset
(`Bucket::multilevel(&[PREFIX_STAKER, asset_key])`): callers register a
staker by saving `true` under the staker's raw address bytes and
deregister with `remove`. -/
abbrev StakerStore := Store Bool

def stakersAdd (s : StakerStore) (staker : Bytes) : StakerStore :=
  bSave s staker true

def stakersRemove (s : StakerStore) (staker : Bytes) : StakerStore :=
  bRemove s staker

/-- Enumerating the registry: the keys under the bucket, ascending. -/
def stakersList (s : StakerStore) : List Bytes :=
  (bRange s none none false).map Prod.fst

/-! ## Round-trip and bridge lemmas -/

theorem beToNat_cons (b : Nat) (l : Bytes) :
    beToNat (b :: l) = b * 256 ^ l.length + beToNat l := by
  have aux : ∀ (l : Bytes) (acc : Nat),
      l.foldl (fun acc b => acc * 256 + b) acc =
        acc * 256 ^ l.length + l.foldl (fun acc b => acc * 256 + b) 0 := by
    intro l
    induction l with
    | nil => intro acc; simp
    | cons x xs ih =>
      intro acc
      simp only [List.foldl_cons, List.length_cons]
      rw [ih (acc * 256 + x), ih (0 * 256 + x)]
      ring
  simp only [beToNat, List.foldl_cons, Nat.zero_mul, Nat.zero_add]
  exact aux l b

theorem beToNat_lt {l : Bytes} (h : ∀ b ∈ l, b < 256) :
    beToNat l < 256 ^ l.length := by
  induction l with
  | nil => simp [beToNat]
  | cons b rest ih =>
    rw [beToNat_cons]
    have hb : b < 256 := h b (List.mem_cons_self _ _)
    have hr : beToNat rest < 256 ^ rest.length :=
      ih (fun x hx => h x (List.mem_cons_of_mem _ hx))
    calc b * 256 ^ rest.length + beToNat rest
        < b * 256 ^ rest.length + 256 ^ rest.length :=
          Nat.add_lt_add_left hr _
    _ = (b + 1) * 256 ^ rest.length := by ring
    _ ≤ 256 * 256 ^ rest.length := Nat.mul_le_mul_right _ hb
    _ = 256 ^ (b :: rest).length := by rw [List.length_cons]; ring

theorem natToBE_beToNat {l : Bytes} (h : ∀ b ∈ l, b < 256) :
    natToBE l.length (beToNat l) = l := by
  induction l with
  | nil => rfl
  | cons b rest ih =>
    have hb : b < 256 := h b (List.mem_cons_self _ _)
    have hr : beToNat rest < 256 ^ rest.length :=
      beToNat_lt (fun x hx => h x (List.mem_cons_of_mem _ hx))
    simp only [List.length_cons, natToBE, beToNat_cons]
    have hdiv : (b * 256 ^ rest.length + beToNat rest) / 256 ^ rest.length
        = b := by
      rw [Nat.mul_comm b, Nat.mul_add_div (Nat.pos_pow_of_pos _ (by norm_num)),
        Nat.div_eq_of_lt hr, Nat.add_zero]
    have hmod : (b * 256 ^ rest.length + beToNat rest) % 256 ^ rest.length
        = beToNat rest := by
      rw [Nat.mul_comm b, Nat.mul_add_mod, Nat.mod_eq_of_lt hr]
    rw [hdiv, hmod, ih (fun x hx => h x (List.mem_cons_of_mem _ hx))]

/-- Unpacking `validKey`. -/
theorem validKey_iff {k : Bytes} :
    validKey k = true ↔ k.length = 8 ∧ ∀ b ∈ k, b < 256 := by
  simp [validKey]

/-- Comparing a valid stored key against a big-endian cutoff is the numeric
comparison of timestamps. -/
theorem bytesLt_toBeBytes_key {T : Nat} (hT : T < 2 ^ 64) {k : Bytes}
    (hk : validKey k = true) :
    bytesLt (toBeBytes T) k = decide (T < beToNat k) := by
  obtain ⟨hlen, hbytes⟩ := validKey_iff.mp hk
  have h256 : (256 : Nat) ^ 8 = 2 ^ 64 := by norm_num
  have hkval : beToNat k < 256 ^ 8 := by
    have := beToNat_lt hbytes
    rwa [hlen] at this
  have hk' : natToBE 8 (beToNat k) = k := by
    have := natToBE_beToNat hbytes
    rwa [hlen] at this
  rw [toBeBytes, Nat.mod_eq_of_lt hT]
  calc bytesLt (natToBE 8 T) k
      = bytesLt (natToBE 8 T) (natToBE 8 (beToNat k)) := by rw [hk']
  _ = decide (T < beToNat k) :=
      bytesLt_natToBE (by rw [h256]; exact hT) hkval

/-- Byte order of two valid stored keys is numeric order of their
timestamps. -/
theorem bytesLt_validKeys {k1 k2 : Bytes} (h1 : validKey k1 = true)
    (h2 : validKey k2 = true) :
    bytesLt k1 k2 = decide (beToNat k1 < beToNat k2) := by
  obtain ⟨hlen1, hbytes1⟩ := validKey_iff.mp h1
  obtain ⟨hlen2, hbytes2⟩ := validKey_iff.mp h2
  have hv1 : beToNat k1 < 256 ^ 8 := by
    have := beToNat_lt hbytes1
    rwa [hlen1] at this
  have hv2 : beToNat k2 < 256 ^ 8 := by
    have := beToNat_lt hbytes2
    rwa [hlen2] at this
  have e1 : natToBE 8 (beToNat k1) = k1 := by
    have := natToBE_beToNat hbytes1
    rwa [hlen1] at this
  have e2 : natToBE 8 (beToNat k2) = k2 := by
    have := natToBE_beToNat hbytes2
    rwa [hlen2] at this
  calc bytesLt k1 k2
      = bytesLt (natToBE 8 (beToNat k1)) (natToBE 8 (beToNat k2)) := by
        rw [e1, e2]
  _ = decide (beToNat k1 < beToNat k2) := bytesLt_natToBE hv1 hv2

theorem bRange_all {V : Type} (s : Store V) : bRange s none none false = s := by
  simp [bRange, inRange]

theorem bRange_all_desc {V : Type} (s : Store V) :
    bRange s none none true = s.reverse := by
  simp [bRange, inRange]

/-- Characterization of the drain scan on a well-formed bucket: it visits
exactly the matured prefix, summing its amounts. -/
theorem drainScan_eq {s : LockStore} {T : Nat}
    (hsort : sortedStore s = true)
    (hall : ∀ e ∈ s, validKey e.1 = true ∧ okVal e.2 = true)
    (hT : T < 2 ^ 64) :
    ∀ acc, acc + maturedSum s T < U128MOD →
    drainScan s (toBeBytes T) acc =
      some (((s.filter (fun e => decide (beToNat e.1 ≤ T))).map Prod.fst),
        acc + maturedSum s T) := by
  induction s with
  | nil =>
    intro acc _
    simp [drainScan, maturedSum]
  | cons e rest ih =>
    intro acc hacc
    obtain ⟨hkey, hval⟩ := hall e (List.mem_cons_self _ _)
    obtain ⟨k, v⟩ := e
    simp only at hkey hval
    cases v with
    | error msg => simp [okVal] at hval
    | ok a =>
      have ha : a < U128MOD := by simpa [okVal] using hval
      by_cases hmat : beToNat k ≤ T
      · -- head matured: accumulate and recurse
        have hcut : bytesLt (toBeBytes T) k = false := by
          rw [bytesLt_toBeBytes_key hT hkey]
          simp [Nat.not_lt_of_ge hmat]
        have hfil : ((k, Except.ok a) :: rest).filter
            (fun e => decide (beToNat e.1 ≤ T))
            = (k, Except.ok a) ::
              rest.filter (fun e => decide (beToNat e.1 ≤ T)) := by
          simp [hmat]
        have hsum_cons : maturedSum ((k, Except.ok a) :: rest) T
            = a + maturedSum rest T := by
          simp only [maturedSum, hfil, List.map_cons, List.sum_cons, amountOf]
        have hlt : acc + a < U128MOD := by
          rw [hsum_cons] at hacc
          omega
        have hrec : acc + a + maturedSum rest T < U128MOD := by
          rw [hsum_cons] at hacc
          omega
        have hih := ih (sortedStore_cons hsort)
          (fun e' he' => hall e' (List.mem_cons_of_mem _ he')) (acc + a) hrec
        have step : drainScan ((k, Except.ok a) :: rest) (toBeBytes T) acc =
            match drainScan rest (toBeBytes T) (acc + a) with
            | none => none
            | some (ks, tot) => some (k :: ks, tot) := by
          simp only [drainScan]
          rw [if_neg (by simp [hcut]), if_pos hlt]
        rw [step, hih, hfil, hsum_cons, List.map_cons]
        simp [Nat.add_assoc]
      · -- head beyond the cutoff: stop, nothing matured
        have hcut : bytesLt (toBeBytes T) k = true := by
          rw [bytesLt_toBeBytes_key hT hkey]
          simp [Nat.lt_of_not_ge hmat]
        have hnone : ∀ e' ∈ (k, Except.ok a) :: rest,
            ¬ (beToNat e'.1 ≤ T) := by
          intro e' he'
          rcases List.mem_cons.mp he' with rfl | he'
          · exact hmat
          · have hlt : bytesLt k e'.1 = true := sortedStore_head_lt hsort e' he'
            have hk' : validKey e'.1 = true :=
              (hall e' (List.mem_cons_of_mem _ he')).1
            rw [bytesLt_validKeys hkey hk'] at hlt
            simp only [decide_eq_true_eq] at hlt
            omega
        have hfil : ((k, Except.ok a) :: rest).filter
            (fun e => decide (beToNat e.1 ≤ T)) = [] := by
          apply List.filter_eq_nil_iff.mpr
          intro e' he'
          simpa using hnone e' he'
        have hms : maturedSum ((k, Except.ok a) :: rest) T = 0 := by
          simp [maturedSum, hfil]
        have step : drainScan ((k, Except.ok a) :: rest) (toBeBytes T) acc =
            some ([], acc) := by
          simp only [drainScan]
          rw [if_pos hcut]
        rw [step, hfil, hms]
        simp

/-- Removing a list of keys one by one filters all of them out
(the removal loop of `remove_and_accumulate_lock_info`). -/
theorem foldl_bRemove_eq_filter {V : Type} (ks : List Bytes) (s : Store V) :
    ks.foldl (fun st k => bRemove st k) s
      = s.filter (fun e => !(decide (e.1 ∈ ks))) := by
  induction ks generalizing s with
  | nil => simp
  | cons k rest ih =>
    rw [List.foldl_cons, ih (bRemove s k)]
    simp only [bRemove, List.filter_filter]
    apply List.filter_congr
    intro e he
    by_cases h1 : e.1 = k <;> by_cases h2 : e.1 ∈ rest <;>
      simp [h1, h2]

/-- In a sorted store, keys identify entries. -/
theorem sortedStore_key_inj {V : Type} {s : Store V}
    (h : sortedStore s = true) {e1 e2 : Bytes × V}
    (h1 : e1 ∈ s) (h2 : e2 ∈ s) (hk : e1.1 = e2.1) : e1 = e2 := by
  induction s with
  | nil => cases h1
  | cons e rest ih =>
    rcases List.mem_cons.mp h1 with rfl | h1' <;>
      rcases List.mem_cons.mp h2 with rfl | h2'
    · rfl
    · have hlt := sortedStore_head_lt h e2 h2'
      rw [hk] at hlt
      exact absurd hlt (by simp [bytesLt_irrefl])
    · have hlt := sortedStore_head_lt h e1 h1'
      rw [hk] at hlt
      exact absurd hlt (by simp [bytesLt_irrefl])
    · exact ih (sortedStore_cons h) h1' h2'

/-- Membership in the matured-key list, for entries of a sorted store. -/
theorem mem_maturedKeys {s : LockStore} (hsort : sortedStore s = true)
    {e : Bytes × RawVal} (he : e ∈ s) {T : Nat} :
    e.1 ∈ (s.filter (fun x => decide (beToNat x.1 ≤ T))).map Prod.fst
      ↔ beToNat e.1 ≤ T := by
  constructor
  · intro h
    obtain ⟨e', he', hkey⟩ := List.mem_map.mp h
    have he'f := List.mem_filter.mp he'
    have hee : e' = e := sortedStore_key_inj hsort he'f.1 he hkey
    have := he'f.2
    rw [hee] at this
    simpa using this
  · intro h
    exact List.mem_map.mpr ⟨e, List.mem_filter.mpr ⟨he, by simp [h]⟩, rfl⟩

theorem wfLockStore_parts {s : LockStore} (hwf : wfLockStore s = true) :
    sortedStore s = true ∧
      ∀ e ∈ s, validKey e.1 = true ∧ okVal e.2 = true := by
  simp only [wfLockStore, Bool.and_eq_true, List.all_eq_true] at hwf
  exact ⟨hwf.1, fun e he => by simpa using hwf.2 e he⟩

/-- Full characterization of `remove_and_accumulate_lock_info` on a
well-formed bucket without accumulator overflow: it returns the sum of the
matured amounts and leaves exactly the entries strictly beyond the
cutoff. -/
theorem remove_and_accumulate_spec (s : LockStore) (T : Nat)
    (hwf : wfLockStore s = true) (hT : T < 2 ^ 64)
    (hsum : maturedSum s T < U128MOD) :
    remove_and_accumulate_lock_info s T =
      some (.ok (maturedSum s T),
        s.filter (fun e => decide (T < beToNat e.1))) := by
  obtain ⟨hsort, hall⟩ := wfLockStore_parts hwf
  have hscan := drainScan_eq hsort hall hT 0 (by simpa using hsum)
  simp only [remove_and_accumulate_lock_info, bRange_all, hscan, Nat.zero_add]
  have hstore :
      ((s.filter (fun e => decide (beToNat e.1 ≤ T))).map Prod.fst).foldl
        (fun st k => bRemove st k) s
      = s.filter (fun e => decide (T < beToNat e.1)) := by
    rw [foldl_bRemove_eq_filter]
    apply List.filter_congr
    intro e he
    by_cases hm : beToNat e.1 ≤ T
    · simp [(mem_maturedKeys hsort he).mpr hm, Nat.not_lt_of_ge hm]
    · have hnotin : e.1 ∉
          (s.filter (fun x => decide (beToNat x.1 ≤ T))).map Prod.fst :=
        fun hc => hm ((mem_maturedKeys hsort he).mp hc)
      simp [hnotin, Nat.lt_of_not_ge hm]
  rw [hstore]

/-- Encoded timestamps are always valid 8-byte keys. -/
theorem validKey_toBeBytes (n : Nat) : validKey (toBeBytes n) = true := by
  rw [validKey_iff, toBeBytes]
  refine ⟨natToBE_length 8 _, natToBE_bytes_lt ?_⟩
  have : (256 : Nat) ^ 8 = 2 ^ 64 := by norm_num
  rw [this]
  exact Nat.mod_lt _ (by norm_num)

theorem beToNat_toBeBytes {n : Nat} (hn : n < 2 ^ 64) :
    beToNat (toBeBytes n) = n := by
  have h256 : (256 : Nat) ^ 8 = 2 ^ 64 := by norm_num
  rw [toBeBytes, Nat.mod_eq_of_lt hn, beToNat_natToBE (by rw [h256]; exact hn)]

/-- A successful `collect` has as many items as the iterator produced. -/
theorem collectExcept_ok_length {α : Type} :
    ∀ {xs : List (Except String α)} {l : List α},
      collectExcept xs = .ok l → l.length = xs.length := by
  intro xs
  induction xs with
  | nil =>
    intro l h
    simp only [collectExcept] at h
    cases h
    rfl
  | cons x rest ih =>
    intro l h
    cases x with
    | error e => simp [collectExcept] at h
    | ok a =>
      simp only [collectExcept] at h
      cases hr : collectExcept rest with
      | error e => rw [hr] at h; cases h
      | ok l' =>
        rw [hr] at h
        cases h
        simp [ih hr]

/-- Collecting a map whose items all succeed yields the mapped values. -/
theorem collectExcept_map {α β : Type} (f : α → Except String β) (g : α → β) :
    ∀ (xs : List α), (∀ x ∈ xs, f x = .ok (g x)) →
      collectExcept (xs.map f) = .ok (xs.map g) := by
  intro xs
  induction xs with
  | nil => intro _; rfl
  | cons x rest ih =>
    intro h
    have hx := h x (List.mem_cons_self _ _)
    have hrest := ih (fun y hy => h y (List.mem_cons_of_mem _ hy))
    simp only [List.map_cons, collectExcept, hx, hrest]

/-- Every item of a successful `collect` over a mapped iterator comes from
a source element that decoded to it. -/
theorem collectExcept_map_mem {α β : Type} (f : α → Except String β) :
    ∀ {xs : List α} {l : List β}, collectExcept (xs.map f) = .ok l →
      ∀ y ∈ l, ∃ x ∈ xs, f x = .ok y := by
  intro xs
  induction xs with
  | nil =>
    intro l h y hy
    simp only [List.map_nil, collectExcept] at h
    cases h
    simp at hy
  | cons x rest ih =>
    intro l h y hy
    simp only [List.map_cons] at h
    cases hfx : f x with
    | error e => rw [hfx] at h; simp [collectExcept] at h
    | ok b =>
      rw [hfx] at h
      simp only [collectExcept] at h
      cases hr : collectExcept (rest.map f) with
      | error e => rw [hr] at h; cases h
      | ok l' =>
        rw [hr] at h
        cases h
        rcases List.mem_cons.mp hy with rfl | hy'
        · exact ⟨x, List.mem_cons_self _ _, hfx⟩
        · obtain ⟨x', hx', hfx'⟩ := ih hr y hy'
          exact ⟨x', List.mem_cons_of_mem _ hx', hfx'⟩

theorem bool_ext {p q : Bool} (h : p = true ↔ q = true) : p = q := by
  cases p <;> cases q <;> simp_all

/-- Appending one byte to the lower bound turns an inclusive bound into an
exclusive one, for keys of the same length: `a < b ++ [c]` iff `a ≤ b`. -/
theorem bytesLt_append_one {a b : Bytes} (h : a.length = b.length) (c : Nat) :
    bytesLt a (b ++ [c]) = (bytesLt a b || decide (a = b)) := by
  induction a generalizing b with
  | nil =>
    cases b with
    | nil => simp [bytesLt]
    | cons y ys => simp at h
  | cons x xs ih =>
    cases b with
    | nil => simp at h
    | cons y ys =>
      have h' : xs.length = ys.length := by
        simpa using h
      have ihP : bytesLt xs (ys ++ [c]) = true ↔
          (bytesLt xs ys = true ∨ xs = ys) := by
        rw [ih h']
        simp
      apply bool_ext
      simp only [List.cons_append, bytesLt, Bool.or_eq_true, Bool.and_eq_true,
        beq_iff_eq, decide_eq_true_eq, List.cons.injEq]
      constructor
      · rintro (h1 | ⟨rfl, h2⟩)
        · exact Or.inl (Or.inl h1)
        · rcases ihP.mp h2 with h3 | rfl
          · exact Or.inl (Or.inr ⟨rfl, h3⟩)
          · exact Or.inr ⟨rfl, rfl⟩
      · rintro ((h1 | ⟨rfl, h2⟩) | ⟨rfl, rfl⟩)
        · exact Or.inl h1
        · exact Or.inr ⟨rfl, ihP.mpr (Or.inl h2)⟩
        · exact Or.inr ⟨rfl, ihP.mpr (Or.inr rfl)⟩

/-- After a save, the key maps to exactly the saved value (and nothing
else): overwrite semantics of `Bucket::save`. -/
theorem bSave_filter_key {V : Type} {s : Store V} (hs : sortedStore s = true)
    (k : Bytes) (v : V) :
    (bSave s k v).filter (fun e => e.1 == k) = [(k, v)] := by
  have drop_of_gt : ∀ (t : Store V), (∀ e ∈ t, bytesLt k e.1 = true) →
      t.filter (fun e => e.1 == k) = [] := by
    intro t ht
    apply List.filter_eq_nil_iff.mpr
    intro e he
    have hlt := ht e he
    simp only [beq_iff_eq]
    intro hek
    rw [hek] at hlt
    exact absurd hlt (by simp [bytesLt_irrefl])
  induction s with
  | nil => simp [bSave]
  | cons e rest ih =>
    simp only [bSave]
    by_cases h1 : bytesLt k e.1 = true
    · rw [if_pos h1]
      have htail : (e :: rest).filter (fun x => x.1 == k) = [] := by
        apply drop_of_gt
        intro e' he'
        rcases List.mem_cons.mp he' with rfl | he'
        · exact h1
        · exact bytesLt_trans h1 (sortedStore_head_lt hs e' he')
      rw [List.filter_cons_of_pos (by simp), htail]
    · rw [if_neg h1]
      by_cases h2 : (k == e.1) = true
      · rw [if_pos h2]
        have hk : k = e.1 := by simpa using h2
        have htail : rest.filter (fun x => x.1 == k) = [] := by
          apply drop_of_gt
          intro e' he'
          rw [hk]
          exact sortedStore_head_lt hs e' he'
        rw [List.filter_cons_of_pos (by simp), htail]
      · rw [if_neg h2]
        have hek : (e.1 == k) = false := by
          have hne : k ≠ e.1 := by simpa using h2
          simp only [beq_eq_false_iff_ne, ne_eq]
          exact fun hc => hne hc.symm
        rw [List.filter_cons_of_neg (by simp [hek]), ih (sortedStore_cons hs)]

/-- Saving the same key and value twice is the same as saving it once. -/
theorem bSave_idem {V : Type} (s : Store V) (k : Bytes) (v : V) :
    bSave (bSave s k v) k v = bSave s k v := by
  induction s with
  | nil => simp [bSave, bytesLt_irrefl]
  | cons e rest ih =>
    simp only [bSave]
    by_cases h1 : bytesLt k e.1 = true
    · rw [if_pos h1]
      simp [bSave, bytesLt_irrefl, h1]
    · rw [if_neg h1]
      by_cases h2 : (k == e.1) = true
      · rw [if_pos h2]
        simp [bSave, bytesLt_irrefl]
      · rw [if_neg h2]
        simp only [bSave, if_neg h1, if_neg h2, ih]

/-- The bucket produced by a sequence of `insert_lock_info` calls, starting
from an empty bucket. -/
def lockStoreOf (entries : List (Nat × Nat)) : LockStore :=
  entries.foldl (fun s e => insert_lock_info s e.1 e.2) []

theorem wfLockStore_insert {s : LockStore} (hwf : wfLockStore s = true)
    {a : Nat} (ha : a < U128MOD) (t : Nat) :
    wfLockStore (insert_lock_info s t a) = true := by
  obtain ⟨hsort, hall⟩ := wfLockStore_parts hwf
  simp only [wfLockStore, Bool.and_eq_true, List.all_eq_true]
  refine ⟨bSave_sorted hsort _ _, ?_⟩
  intro e he
  rcases mem_bSave he with rfl | he'
  · simp [validKey_toBeBytes, okVal, ha]
  · have := hall e he'
    simp [this.1, this.2]

theorem wf_lockStoreOf (entries : List (Nat × Nat))
    (hamt : ∀ e ∈ entries, e.2 < U128MOD) :
    wfLockStore (lockStoreOf entries) = true := by
  suffices h : ∀ (s : LockStore), wfLockStore s = true →
      wfLockStore (entries.foldl (fun s e => insert_lock_info s e.1 e.2) s)
        = true by
    exact h [] rfl
  induction entries with
  | nil => intro s hs; exact hs
  | cons e rest ih =>
    intro s hs
    exact ih (fun x hx => hamt x (List.mem_cons_of_mem _ hx))
      _ (wfLockStore_insert hs (hamt e (List.mem_cons_self _ _)) _)

theorem bSave_length {V : Type} (s : Store V) (k : Bytes) (v : V) :
    (bSave s k v).length ≤ s.length + 1 := by
  induction s with
  | nil => simp [bSave]
  | cons e rest ih =>
    simp only [bSave]
    by_cases h1 : bytesLt k e.1 = true
    · rw [if_pos h1]; simp
    · rw [if_neg h1]
      by_cases h2 : (k == e.1) = true
      · rw [if_pos h2]; simp
      · rw [if_neg h2]
        simp only [List.length_cons]
        omega

theorem lockStoreOf_length (entries : List (Nat × Nat)) :
    (lockStoreOf entries).length ≤ entries.length := by
  suffices h : ∀ (s : LockStore),
      (entries.foldl (fun s e => insert_lock_info s e.1 e.2) s).length ≤
        s.length + entries.length by
    simpa using h []
  induction entries with
  | nil => intro s; simp
  | cons e rest ih =>
    intro s
    calc (rest.foldl (fun s e => insert_lock_info s e.1 e.2)
          (insert_lock_info s e.1 e.2)).length
        ≤ (insert_lock_info s e.1 e.2).length + rest.length := ih _
    _ ≤ s.length + 1 + rest.length := by
        have := bSave_length s (toBeBytes e.1) (Except.ok e.2)
        simp only [insert_lock_info]
        omega
    _ = s.length + (e :: rest).length := by simp; omega

/-- The `LockInfo` a well-formed stored entry decodes to. -/
def decodedEntry (e : Bytes × RawVal) : LockInfo :=
  ⟨beToNat e.1, amountOf e.2⟩

theorem decodeLock_ok {e : Bytes × RawVal} (hk : validKey e.1 = true)
    (hv : okVal e.2 = true) : decodeLock e = .ok (decodedEntry e) := by
  obtain ⟨k, v⟩ := e
  cases v with
  | error msg => simp [okVal] at hv
  | ok a =>
    have hlen : k.length = 8 := (validKey_iff.mp hk).1
    simp [decodeLock, decodedEntry, hlen, amountOf]

/-- Decoded entries of a sorted well-formed bucket have strictly increasing
timestamps. -/
theorem sorted_decoded_chain {s : LockStore} (hs : sortedStore s = true)
    (hall : ∀ e ∈ s, validKey e.1 = true) :
    List.Chain' (fun a b => a.unlock_time < b.unlock_time)
      (s.map decodedEntry) := by
  induction s with
  | nil => simp
  | cons e rest ih =>
    cases rest with
    | nil => simp
    | cons b r2 =>
      rw [List.map_cons, List.map_cons, List.chain'_cons]
      constructor
      · have hlt : bytesLt e.1 b.1 = true :=
          sortedStore_head_lt hs b (List.mem_cons_self _ _)
        rw [bytesLt_validKeys (hall e (List.mem_cons_self _ _))
          (hall b (List.mem_cons_of_mem _ (List.mem_cons_self _ _)))] at hlt
        simpa [decodedEntry] using hlt
      · have := ih (sortedStore_cons hs)
          (fun x hx => hall x (List.mem_cons_of_mem _ hx))
        rw [List.map_cons] at this
        exact this

/-! ## Snapshot write/read characterization -/

/-- Strictly increasing write heights (the version counter increases across
execution steps). -/
def ascendingHeights {V : Type} : List (Nat × V) → Bool
  | [] => true
  | [_] => true
  | a :: b :: rest => decide (a.1 < b.1) && ascendingHeights (b :: rest)

/-- Apply a sequence of `(height, value)` writes to a fresh key. -/
def applyLog {V : Type} (ws : List (Nat × V)) : SnapState V :=
  ws.foldl (fun s w => snap_save s w.2 w.1) snapEmpty

/-- The changelog a write sequence produces: the entry at height `h` holds
the value current just before the write at `h`. -/
def shiftLog {V : Type} : Option V → List (Nat × V) → List (Nat × Option V)
  | _, [] => []
  | prev, (h, v) :: rest => (h, prev) :: shiftLog (some v) rest

/-- The current value after a write sequence. -/
def lastValue {V : Type} : Option V → List (Nat × V) → Option V
  | p, [] => p
  | _, (_, v) :: rest => lastValue (some v) rest

/-- The value after the mutation with the greatest version strictly below
the query version (`none` when there is none), for writes listed in
increasing version order. -/
def lastWriteBeforeAux {V : Type} :
    Option V → List (Nat × V) → Nat → Option V
  | prev, [], _ => prev
  | prev, (h, v) :: rest, q =>
    if h < q then lastWriteBeforeAux (some v) rest q else prev

def lastWriteBefore {V : Type} (ws : List (Nat × V)) (q : Nat) : Option V :=
  lastWriteBeforeAux none ws q

theorem ascendingHeights_cons {V : Type} {w : Nat × V} {ws : List (Nat × V)}
    (h : ascendingHeights (w :: ws) = true) : ascendingHeights ws = true := by
  cases ws with
  | nil => rfl
  | cons b rest =>
    simp only [ascendingHeights, Bool.and_eq_true] at h
    exact h.2

theorem ascendingHeights_head_lt {V : Type} {w : Nat × V}
    {ws : List (Nat × V)} (h : ascendingHeights (w :: ws) = true) :
    ∀ w' ∈ ws, w.1 < w'.1 := by
  induction ws generalizing w with
  | nil => intro w' hw'; simp at hw'
  | cons b rest ih =>
    simp only [ascendingHeights, Bool.and_eq_true, decide_eq_true_eq] at h
    intro w' hw'
    rcases List.mem_cons.mp hw' with rfl | hw'
    · exact h.1
    · exact Nat.lt_trans h.1 (ih h.2 w' hw')

theorem hasChangelog_of_gt {V : Type} {cl : List (Nat × Option V)} {h : Nat}
    (hall : ∀ e ∈ cl, e.1 < h) : hasChangelog cl h = false := by
  simp only [hasChangelog, List.any_eq_false]
  intro e he
  have := hall e he
  simp only [beq_iff_eq]
  omega

theorem insertChangelog_append {V : Type} {cl : List (Nat × Option V)}
    {h : Nat} (hall : ∀ e ∈ cl, e.1 < h) (old : Option V) :
    insertChangelog cl h old = cl ++ [(h, old)] := by
  induction cl with
  | nil => rfl
  | cons e rest ih =>
    have he := hall e (List.mem_cons_self _ _)
    simp only [insertChangelog]
    rw [if_neg (by omega)]
    rw [ih (fun x hx => hall x (List.mem_cons_of_mem _ hx))]
    rfl

/-- State of a snapshot key after a sequence of writes at increasing
heights, starting from primary `p` and changelog `cl` below all written
heights. -/
theorem applyLog_state {V : Type} :
    ∀ (ws : List (Nat × V)) (p : Option V) (cl : List (Nat × Option V)),
    ascendingHeights ws = true →
    (∀ e ∈ cl, ∀ w ∈ ws, e.1 < w.1) →
    ws.foldl (fun s w => snap_save s w.2 w.1) ⟨p, cl⟩ =
      ⟨lastValue p ws, cl ++ shiftLog p ws⟩ := by
  intro ws
  induction ws with
  | nil =>
    intro p cl _ _
    simp [lastValue, shiftLog]
  | cons w rest ih =>
    intro p cl hasc hcl
    obtain ⟨h0, v0⟩ := w
    have hcl0 : ∀ e ∈ cl, e.1 < h0 :=
      fun e he => hcl e he (h0, v0) (List.mem_cons_self _ _)
    have hstep : snap_save (⟨p, cl⟩ : SnapState V) v0 h0 =
        ⟨some v0, cl ++ [(h0, p)]⟩ := by
      simp only [snap_save, hasChangelog_of_gt hcl0, Bool.false_eq_true,
        if_false, insertChangelog_append hcl0]
    have hcl' : ∀ e ∈ cl ++ [(h0, p)], ∀ w' ∈ rest, e.1 < w'.1 := by
      intro e he w' hw'
      rcases List.mem_append.mp he with he | he
      · exact hcl e he w' (List.mem_cons_of_mem _ hw')
      · have : e = (h0, p) := by simpa using he
        rw [this]
        exact ascendingHeights_head_lt hasc w' hw'
    simp only [List.foldl_cons, hstep,
      ih (some v0) (cl ++ [(h0, p)]) (ascendingHeights_cons hasc) hcl']
    simp [lastValue, shiftLog, List.append_assoc]

/-- Reading a snapshot key built from a write sequence yields the value
before the first write at or above the query height. -/
theorem read_shiftLog {V : Type} :
    ∀ (ws : List (Nat × V)) (prev : Option V) (q : Nat),
    may_load_at_height ⟨lastValue prev ws, shiftLog prev ws⟩ q =
      lastWriteBeforeAux prev ws q := by
  intro ws
  induction ws with
  | nil =>
    intro prev q
    simp [may_load_at_height, shiftLog, lastValue, lastWriteBeforeAux]
  | cons w rest ih =>
    intro prev q
    obtain ⟨h0, v0⟩ := w
    by_cases hq : q ≤ h0
    · have hfind : ((h0, prev) :: shiftLog (some v0) rest).find?
          (fun e => decide (q ≤ e.1)) = some (h0, prev) :=
        List.find?_cons_of_pos _ (by simpa using hq)
      simp only [may_load_at_height, shiftLog, hfind, lastWriteBeforeAux]
      rw [if_neg (by omega)]
    · have hfind : ∀ (r : Option (Nat × Option V)),
          ((h0, prev) :: shiftLog (some v0) rest).find?
            (fun e => decide (q ≤ e.1)) =
          (shiftLog (some v0) rest).find? (fun e => decide (q ≤ e.1)) :=
        fun _ => List.find?_cons_of_neg _ (by simpa using hq)
      simp only [may_load_at_height, shiftLog, hfind none, lastValue,
        lastWriteBeforeAux]
      rw [if_pos (by omega)]
      have := ih (some v0) q
      simpa [may_load_at_height, lastValue] using this

/-! ## Claim theorems -/

/-- The spec's running example bucket: entries at timestamps 10, 20, 30
with amounts 5, 7, 3. -/
def exampleStore : LockStore :=
  [(toBeBytes 10, Except.ok 5), (toBeBytes 20, Except.ok 7),
    (toBeBytes 30, Except.ok 3)]

/-- C1: for every set of lock entries stored for a given (asset, staker)
bucket and every cutoff `T`, `remove_and_accumulate_lock_info` returns the
sum of the amounts of exactly the entries with unlock timestamp ≤ `T`,
removes exactly those entries, leaves the entries with timestamp strictly
greater than `T` unchanged, and returns zero when no entry has matured. -/
theorem claim_C1 (s : LockStore) (T : Nat)
    (hwf : wfLockStore s = true) (hT : T < 2 ^ 64)
    (hsum : maturedSum s T < U128MOD) :
    remove_and_accumulate_lock_info s T =
      some (.ok (maturedSum s T),
        s.filter (fun e => decide (T < beToNat e.1)))
    ∧ ((∀ e ∈ s, T < beToNat e.1) → maturedSum s T = 0) := by
  refine ⟨remove_and_accumulate_spec s T hwf hT hsum, ?_⟩
  intro h
  have hfil : s.filter (fun e => decide (beToNat e.1 ≤ T)) = [] := by
    apply List.filter_eq_nil_iff.mpr
    intro e he
    have := h e he
    simp only [decide_eq_true_eq]
    omega
  simp [maturedSum, hfil]

/-- Witness for C1: the spec's example bucket at cutoff 20. -/
theorem claim_C1_witness :
    wfLockStore exampleStore = true ∧ (20 : Nat) < 2 ^ 64 ∧
    maturedSum exampleStore 20 < U128MOD ∧
    (remove_and_accumulate_lock_info exampleStore 20 =
      some (.ok (maturedSum exampleStore 20),
        exampleStore.filter (fun e => decide (20 < beToNat e.1)))
    ∧ ((∀ e ∈ exampleStore, 20 < beToNat e.1) →
        maturedSum exampleStore 20 = 0)) :=
  ⟨by decide, by decide, by decide,
    claim_C1 exampleStore 20 (by decide) (by decide) (by decide)⟩

/-- C2 as stated is false on the code: after writes 11 at version 1, 22 at
version 5, 33 at version 9, reading at version 5 returns the pre-write
value 11, not the value 22 written at version 5 — a write at version V is
not visible when reading at V itself. -/
theorem claim_C2_counterexample :
    may_load_at_height
        (snap_save (snap_save (snap_save snapEmpty 11 1) 22 5) 33 9) 5
      = some 11
    ∧ may_load_at_height
        (snap_save (snap_save (snap_save snapEmpty 11 1) 22 5) 33 9) 5
      ≠ some 22 := by
  constructor
  · decide
  · decide

/-- C2 (amended): for a sequence of writes at strictly increasing versions
applied to a fresh key of the versioned balance maps, reading at version V
returns the value written by the mutation with the greatest version
strictly less than V (a write at version V only becomes visible from
version V+1), and reading at or below the first mutation's version — in
particular before any mutation — returns the absent value. -/
theorem claim_C2_amended {V : Type} (ws : List (Nat × V))
    (hinc : ascendingHeights ws = true) (q : Nat) :
    may_load_at_height (applyLog ws) q = lastWriteBefore ws q := by
  have hstate := applyLog_state ws none [] hinc (by simp)
  unfold applyLog lastWriteBefore
  have hempty : snapEmpty (V := V) = ⟨none, []⟩ := rfl
  rw [hempty, hstate]
  simpa using read_shiftLog ws none q

/-- Witness for the amended C2: the spec's write sequence, read at 6. -/
theorem claim_C2_amended_witness :
    ascendingHeights [(1, 11), (5, 22), (9, 33)] = true ∧
    may_load_at_height (applyLog [(1, (11 : Nat)), (5, 22), (9, 33)]) 6 =
      lastWriteBefore [(1, (11 : Nat)), (5, 22), (9, 33)] 6 :=
  ⟨by decide, claim_C2_amended [(1, 11), (5, 22), (9, 33)] (by decide) 6⟩

/-- C3: inserting a lock entry at a timestamp that already holds one
overwrites it — afterwards exactly one entry exists at that timestamp and
its amount is the new one; the old amount is discarded, not summed. -/
theorem claim_C3 (s : LockStore) (t a1 a2 : Nat)
    (hs : sortedStore s = true)
    (_hmem : (toBeBytes t, Except.ok a1) ∈ s) :
    (insert_lock_info s t a2).filter (fun e => e.1 == toBeBytes t)
      = [(toBeBytes t, Except.ok a2)] :=
  bSave_filter_key hs (toBeBytes t) (Except.ok a2)

/-- Witness for C3: amount 5 at timestamp 10 is overwritten by 9. -/
theorem claim_C3_witness :
    sortedStore ([(toBeBytes 10, Except.ok 5)] : LockStore) = true ∧
    (toBeBytes 10, Except.ok 5) ∈
      ([(toBeBytes 10, Except.ok 5)] : LockStore) ∧
    (insert_lock_info [(toBeBytes 10, Except.ok 5)] 10 9).filter
      (fun e => e.1 == toBeBytes 10) = [(toBeBytes 10, Except.ok 9)] :=
  ⟨by decide, by decide,
    claim_C3 [(toBeBytes 10, Except.ok 5)] 10 5 9 (by decide) (by decide)⟩

/-- Sum of the (decoded) amounts of a list of entries. -/
def sumAmounts (s : LockStore) : Nat :=
  (s.map (fun e => amountOf e.2)).sum

/-- A sorted store is pairwise strictly ascending. -/
theorem sortedStore_pairwise {V : Type} {s : Store V}
    (h : sortedStore s = true) :
    List.Pairwise (fun a b => bytesLt a.1 b.1 = true) s := by
  induction s with
  | nil => exact List.Pairwise.nil
  | cons e rest ih =>
    exact List.Pairwise.cons (fun b hb => sortedStore_head_lt h b hb)
      (ih (sortedStore_cons h))

/-- Composition of the drain scan over a prefix of decodable matured
entries: the prefix is scanned entirely (accumulating its amounts and
recording its keys) and the scan continues into the remainder of the
bucket. -/
theorem drainScan_append {T : Nat} (hT : T < 2 ^ 64) :
    ∀ (pre tail : LockStore),
    (∀ e ∈ pre, validKey e.1 = true ∧ okVal e.2 = true ∧
      beToNat e.1 ≤ T) →
    ∀ acc, acc + sumAmounts pre < U128MOD →
    drainScan (pre ++ tail) (toBeBytes T) acc =
      match drainScan tail (toBeBytes T) (acc + sumAmounts pre) with
      | none => none
      | some (ks, tot) => some (pre.map Prod.fst ++ ks, tot) := by
  intro pre
  induction pre with
  | nil =>
    intro tail _ acc _
    simp only [List.nil_append, sumAmounts, List.map_nil, List.sum_nil,
      Nat.add_zero]
    cases drainScan tail (toBeBytes T) acc with
    | none => rfl
    | some p =>
      obtain ⟨ks, tot⟩ := p
      simp
  | cons e rest ih =>
    intro tail hall acc hacc
    obtain ⟨hkey, hok, hmat⟩ := hall e (List.mem_cons_self _ _)
    obtain ⟨k, v⟩ := e
    simp only at hkey hok hmat
    cases v with
    | error msg => simp [okVal] at hok
    | ok a =>
      have ha : a < U128MOD := by simpa [okVal] using hok
      have hsum_cons : sumAmounts ((k, Except.ok a) :: rest) =
          a + sumAmounts rest := by
        simp [sumAmounts, amountOf]
      have hcut : bytesLt (toBeBytes T) k = false := by
        rw [bytesLt_toBeBytes_key hT hkey]
        simp only [decide_eq_false_iff_not]
        omega
      have hlt : acc + a < U128MOD := by
        rw [hsum_cons] at hacc
        omega
      have step : drainScan ((k, Except.ok a) :: (rest ++ tail))
          (toBeBytes T) acc =
          match drainScan (rest ++ tail) (toBeBytes T) (acc + a) with
          | none => none
          | some (ks, tot) => some (k :: ks, tot) := by
        simp only [drainScan]
        rw [if_neg (by simp [hcut]), if_pos hlt]
      have hrest : ∀ e ∈ rest, validKey e.1 = true ∧ okVal e.2 = true ∧
          beToNat e.1 ≤ T :=
        fun e he => hall e (List.mem_cons_of_mem _ he)
      have hacc' : acc + a + sumAmounts rest < U128MOD := by
        rw [hsum_cons] at hacc
        omega
      rw [List.cons_append, step, ih tail hrest (acc + a) hacc']
      have haccsum : acc + a + sumAmounts rest =
          acc + sumAmounts ((k, Except.ok a) :: rest) := by
        rw [hsum_cons]
        omega
      rw [haccsum]
      cases drainScan tail (toBeBytes T)
          (acc + sumAmounts ((k, Except.ok a) :: rest)) with
      | none => rfl
      | some p =>
        obtain ⟨ks, tot⟩ := p
        simp

/-- C4 as stated is false on the code: with a malformed stored value at a
matured timestamp followed by a perfectly decodable matured entry, the
call signals nothing — it returns `Ok 0`, removes nothing, and silently
drops both the decode failure and the decodable entry behind it. -/
theorem claim_C4_counterexample :
    (∃ e ∈ ([(toBeBytes 10, Except.error "parse"),
        (toBeBytes 20, Except.ok 7)] : LockStore),
      e.2 = Except.error "parse")
    ∧ remove_and_accumulate_lock_info
        [(toBeBytes 10, Except.error "parse"), (toBeBytes 20, Except.ok 7)]
        30
      = some (.ok 0,
          [(toBeBytes 10, Except.error "parse"),
            (toBeBytes 20, Except.ok 7)]) := by
  constructor
  · exact ⟨(toBeBytes 10, Except.error "parse"),
      List.mem_cons_self _ _, rfl⟩
  · decide

/-- C4 (amended): `remove_and_accumulate_lock_info` never signals an
error: (i) whenever it completes it returns `Ok`; (ii) a decoding failure
of a stored entry, at any position in the scan, silently terminates the
scan — the call returns `Ok` with the partial total of the matured entries
scanned before the failure and removes exactly those, whatever decodable
entries follow the failure; (iii) an arithmetic overflow while
accumulating, at any position in the scan, panics instead of returning an
error. -/
theorem claim_C4_amended :
    (∀ (s : LockStore) (T : Nat) (r : Except String Nat × LockStore),
      remove_and_accumulate_lock_info s T = some r → ∃ v, r.1 = .ok v)
    ∧ (∀ (pre : LockStore) (bk : Bytes) (msg : String) (post : LockStore)
        (T : Nat),
        sortedStore (pre ++ (bk, Except.error msg) :: post) = true →
        (∀ e ∈ pre, validKey e.1 = true ∧ okVal e.2 = true ∧
          beToNat e.1 ≤ T) →
        T < 2 ^ 64 → sumAmounts pre < U128MOD →
        remove_and_accumulate_lock_info
          (pre ++ (bk, Except.error msg) :: post) T =
          some (.ok (sumAmounts pre), (bk, Except.error msg) :: post))
    ∧ (∀ (pre : LockStore) (k : Bytes) (a : Nat) (post : LockStore)
        (T : Nat),
        (∀ e ∈ pre, validKey e.1 = true ∧ okVal e.2 = true ∧
          beToNat e.1 ≤ T) →
        validKey k = true → beToNat k ≤ T → T < 2 ^ 64 →
        sumAmounts pre < U128MOD → U128MOD ≤ sumAmounts pre + a →
        remove_and_accumulate_lock_info (pre ++ (k, Except.ok a) :: post) T
          = none) := by
  refine ⟨?_, ?_, ?_⟩
  · intro s T r h
    unfold remove_and_accumulate_lock_info at h
    cases hd : drainScan (bRange s none none false) (toBeBytes T) 0 with
    | none => rw [hd] at h; cases h
    | some p =>
      rw [hd] at h
      obtain ⟨ks, tot⟩ := p
      simp only [Option.some.injEq] at h
      exact ⟨tot, by rw [← h]⟩
  · intro pre bk msg post T hsorted hall hT hsum
    have hscan := drainScan_append hT pre ((bk, Except.error msg) :: post)
      hall 0 (by simpa using hsum)
    have hinner : drainScan ((bk, Except.error msg) :: post) (toBeBytes T)
        (0 + sumAmounts pre) = some ([], 0 + sumAmounts pre) := by
      simp [drainScan]
    rw [hinner] at hscan
    simp only [Nat.zero_add, List.append_nil] at hscan
    have hcross : ∀ x ∈ pre, ∀ y ∈ (bk, Except.error msg) :: post,
        bytesLt x.1 y.1 = true :=
      (List.pairwise_append.mp (sortedStore_pairwise hsorted)).2.2
    have hremove : (pre.map Prod.fst).foldl (fun st k => bRemove st k)
        (pre ++ (bk, Except.error msg) :: post)
        = (bk, Except.error msg) :: post := by
      rw [foldl_bRemove_eq_filter, List.filter_append]
      have h1 : pre.filter
          (fun e => !(decide (e.1 ∈ pre.map Prod.fst))) = [] :=
        List.filter_eq_nil_iff.mpr (fun e he => by
          simp [List.mem_map.mpr ⟨e, he, rfl⟩])
      have h2 : ((bk, Except.error msg) :: post).filter
          (fun e => !(decide (e.1 ∈ pre.map Prod.fst)))
          = (bk, Except.error msg) :: post := by
        apply List.filter_eq_self.mpr
        intro e he
        have hnot : e.1 ∉ pre.map Prod.fst := by
          intro hc
          obtain ⟨e', he', heq⟩ := List.mem_map.mp hc
          have hlt := hcross e' he' e he
          rw [heq] at hlt
          exact absurd hlt (by simp [bytesLt_irrefl])
        simp [hnot]
      rw [h1, h2, List.nil_append]
    simp only [remove_and_accumulate_lock_info, bRange_all, hscan, hremove]
  · intro pre k a post T hall hk hkT hT hsum hov
    have hscan := drainScan_append hT pre ((k, Except.ok a) :: post)
      hall 0 (by simpa using hsum)
    have hcut : bytesLt (toBeBytes T) k = false := by
      rw [bytesLt_toBeBytes_key hT hk]
      simp only [decide_eq_false_iff_not]
      omega
    have hinner : drainScan ((k, Except.ok a) :: post) (toBeBytes T)
        (0 + sumAmounts pre) = none := by
      simp only [drainScan]
      rw [if_neg (by simp [hcut]), if_neg (by omega)]
    rw [hinner] at hscan
    simp [remove_and_accumulate_lock_info, bRange_all, hscan]

/-- Witness for the amended C4: part (ii) with the failure mid-bucket —
the matured entry at timestamp 3 (amount 5) is summed and removed, the
malformed entry at 4 and the decodable entry at 6 stay; part (iii) with an
overflow at the second scanned entry; part (i) at the example bucket. -/
theorem claim_C4_amended_witness :
    (∃ v, (Except.ok (12 : Nat) : Except String Nat) = .ok v)
    ∧ remove_and_accumulate_lock_info
        ([(toBeBytes 3, Except.ok 5)] ++
          (toBeBytes 4, Except.error "bad") :: [(toBeBytes 6, Except.ok 9)])
        10
      = some (.ok (sumAmounts [(toBeBytes 3, Except.ok 5)]),
          (toBeBytes 4, Except.error "bad") :: [(toBeBytes 6, Except.ok 9)])
    ∧ remove_and_accumulate_lock_info
        ([(toBeBytes 3, Except.ok 5)] ++
          (toBeBytes 4, Except.ok (2 ^ 128 - 3)) :: []) 10 = none :=
  ⟨claim_C4_amended.1 exampleStore 20
      (.ok 12, [(toBeBytes 30, Except.ok 3)]) (by decide),
    claim_C4_amended.2.1 [(toBeBytes 3, Except.ok 5)] (toBeBytes 4) "bad"
      [(toBeBytes 6, Except.ok 9)] 10 (by decide) (by decide) (by decide)
      (by decide),
    claim_C4_amended.2.2 [(toBeBytes 3, Except.ok 5)] (toBeBytes 4)
      (2 ^ 128 - 3) [] 10 (by decide) (by decide) (by decide) (by decide)
      (by decide) (by decide)⟩

/-- C5: an unset `limit` behaves exactly as `limit = 10`; any `limit`
above 30 behaves exactly as `limit = 30`; and a `limit` at or below 30 is
honored as given — the call returns exactly `min limit` (available
entries) items when it succeeds. -/
theorem claim_C5 (s : LockStore) (sa : Option Nat) (o : Option Int) :
    read_user_lock_info s sa none o = read_user_lock_info s sa (some 10) o
    ∧ (∀ n, 30 < n →
        read_user_lock_info s sa (some n) o =
          read_user_lock_info s sa (some 30) o)
    ∧ (∀ (n : Nat) (l : List LockInfo) (ord : ScanOrder), n ≤ 30 →
        orderTryFrom (o.getD 1) = .ok ord →
        read_user_lock_info s sa (some n) o = .ok l →
        l.length = min n (lockRange s sa ord).length) := by
  refine ⟨rfl, ?_, ?_⟩
  · intro n hn
    have h1 : ((some n).getD DEFAULT_LIMIT).min MAX_LIMIT = 30 := by
      simp [DEFAULT_LIMIT, MAX_LIMIT]
      omega
    have h2 : ((some 30).getD DEFAULT_LIMIT).min MAX_LIMIT = 30 := rfl
    simp only [read_user_lock_info, h1, h2]
  · intro n l ord hn hord hread
    simp only [read_user_lock_info, hord] at hread
    have hmin : ((some n).getD DEFAULT_LIMIT).min MAX_LIMIT = n := by
      simp [DEFAULT_LIMIT, MAX_LIMIT]
      omega
    rw [hmin] at hread
    have hlen := collectExcept_ok_length hread
    rw [hlen, List.length_map, List.length_take]

/-- Witness for C5 on the example bucket: default limit, a limit of 100
clamped to 30, and an honored limit of 2. -/
theorem claim_C5_witness :
    read_user_lock_info exampleStore none none (some 1) =
      read_user_lock_info exampleStore none (some 10) (some 1)
    ∧ read_user_lock_info exampleStore none (some 100) (some 1) =
        read_user_lock_info exampleStore none (some 30) (some 1)
    ∧ ([⟨10, 5⟩, ⟨20, 7⟩] : List LockInfo).length =
        min 2 (lockRange exampleStore none ScanOrder.Ascending).length :=
  ⟨(claim_C5 exampleStore none (some 1)).1,
    (claim_C5 exampleStore none (some 1)).2.1 100 (by decide),
    (claim_C5 exampleStore none (some 1)).2.2 2 [⟨10, 5⟩, ⟨20, 7⟩]
      ScanOrder.Ascending (by decide) (by decide) (by decide)⟩

/-- C6: `start_after` is exclusive — every entry returned in ascending
order has unlock timestamp strictly greater than `start_after`, in
descending order strictly less (the entry at exactly `start_after` is
never returned); with `start_after` absent the scan covers the bucket from
the unbounded end in the requested direction. -/
theorem claim_C6 (s : LockStore) (hwf : wfLockStore s = true)
    (sa : Nat) (hsa : sa < 2 ^ 64) (lim : Option Nat) :
    (∀ l, read_user_lock_info s (some sa) lim (some 1) = .ok l →
      ∀ li ∈ l, sa < li.unlock_time)
    ∧ (∀ l, read_user_lock_info s (some sa) lim (some 2) = .ok l →
      ∀ li ∈ l, li.unlock_time < sa)
    ∧ (∀ ord, lockRange s none ord =
        bRange s none none (ord == ScanOrder.Descending)) := by
  obtain ⟨hsort, hall⟩ := wfLockStore_parts hwf
  have hsalen : (toBeBytes sa).length = 8 := natToBE_length 8 _
  refine ⟨?_, ?_, ?_⟩
  · intro l hread li hli
    have hread' : collectExcept
        (((lockRange s (some sa) ScanOrder.Ascending).take
          ((lim.getD DEFAULT_LIMIT).min MAX_LIMIT)).map decodeLock)
        = .ok l := by
      simpa [read_user_lock_info, orderTryFrom] using hread
    obtain ⟨e, he, hdec⟩ := collectExcept_map_mem decodeLock hread' li hli
    have he' : e ∈ lockRange s (some sa) ScanOrder.Ascending :=
      List.take_subset _ _ he
    have hmem : e ∈ s.filter
        (fun x => inRange (some (toBeBytes sa ++ [1])) none x.1) := by
      simpa [lockRange, bRange, calc_range_start] using he'
    obtain ⟨hes, hbound⟩ := List.mem_filter.mp hmem
    have hkey := (hall e hes).1
    have hklen : e.1.length = 8 := (validKey_iff.mp hkey).1
    have hnotlt : bytesLt e.1 (toBeBytes sa ++ [1]) = false := by
      simp only [inRange, Bool.and_eq_true, Bool.not_eq_true'] at hbound
      exact hbound.1
    rw [bytesLt_append_one (by rw [hklen, hsalen]) 1] at hnotlt
    have hgt : bytesLt (toBeBytes sa) e.1 = true := by
      simp only [Bool.or_eq_false_iff, decide_eq_false_iff_not] at hnotlt
      rcases bytesLt_total hnotlt.2 with h | h
      · exact absurd h (by simp [hnotlt.1])
      · exact h
    rw [bytesLt_toBeBytes_key hsa hkey] at hgt
    have hnum : sa < beToNat e.1 := by simpa using hgt
    have hli_eq : li = decodedEntry e := by
      have := decodeLock_ok hkey (hall e hes).2
      rw [this] at hdec
      exact (Except.ok.inj hdec).symm
    rw [hli_eq]
    simpa [decodedEntry] using hnum
  · intro l hread li hli
    have hread' : collectExcept
        (((lockRange s (some sa) ScanOrder.Descending).take
          ((lim.getD DEFAULT_LIMIT).min MAX_LIMIT)).map decodeLock)
        = .ok l := by
      simpa [read_user_lock_info, orderTryFrom] using hread
    obtain ⟨e, he, hdec⟩ := collectExcept_map_mem decodeLock hread' li hli
    have he' : e ∈ lockRange s (some sa) ScanOrder.Descending :=
      List.take_subset _ _ he
    have hmem : e ∈ s.filter
        (fun x => inRange none (some (toBeBytes sa)) x.1) := by
      have : e ∈ (s.filter
          (fun x => inRange none (some (toBeBytes sa)) x.1)).reverse := by
        simpa [lockRange, bRange] using he'
      exact List.mem_reverse.mp this
    obtain ⟨hes, hbound⟩ := List.mem_filter.mp hmem
    have hkey := (hall e hes).1
    have hlt : bytesLt e.1 (toBeBytes sa) = true := by
      simpa [inRange] using hbound
    rw [bytesLt_validKeys hkey (validKey_toBeBytes sa),
      beToNat_toBeBytes hsa] at hlt
    have hnum : beToNat e.1 < sa := by simpa using hlt
    have hli_eq : li = decodedEntry e := by
      have := decodeLock_ok hkey (hall e hes).2
      rw [this] at hdec
      exact (Except.ok.inj hdec).symm
    rw [hli_eq]
    simpa [decodedEntry] using hnum
  · intro ord
    cases ord <;> rfl

/-- Witness for C6 on the example bucket with `start_after = 20`. -/
theorem claim_C6_witness :
    wfLockStore exampleStore = true ∧ (20 : Nat) < 2 ^ 64 ∧
    (∀ li ∈ [(⟨30, 3⟩ : LockInfo)], 20 < li.unlock_time) ∧
    (∀ li ∈ [(⟨10, 5⟩ : LockInfo)], li.unlock_time < 20) ∧
    lockRange exampleStore none ScanOrder.Ascending =
      bRange exampleStore none none
        (ScanOrder.Ascending == ScanOrder.Descending) :=
  ⟨by decide, by decide,
    (claim_C6 exampleStore (by decide) 20 (by decide) none).1
      [⟨30, 3⟩] (by decide),
    (claim_C6 exampleStore (by decide) 20 (by decide) none).2.1
      [⟨10, 5⟩] (by decide),
    (claim_C6 exampleStore (by decide) 20 (by decide) none).2.2
      ScanOrder.Ascending⟩

/-- C7: after any sequence of `insert_lock_info` calls with pairwise
distinct timestamps whose count fits within the (clamped) limit, the
ascending read returns the entries in strictly increasing timestamp order
and the descending read returns the exact reverse sequence. -/
theorem claim_C7 (entries : List (Nat × Nat))
    (_hdist : entries.Pairwise (fun a b => a.1 ≠ b.1))
    (_htime : ∀ e ∈ entries, e.1 < 2 ^ 64)
    (hamt : ∀ e ∈ entries, e.2 < U128MOD)
    (lim : Option Nat)
    (hcount : entries.length ≤ (lim.getD DEFAULT_LIMIT).min MAX_LIMIT) :
    ∃ l, read_user_lock_info (lockStoreOf entries) none lim (some 1) = .ok l
      ∧ List.Chain' (fun a b => a.unlock_time < b.unlock_time) l
      ∧ read_user_lock_info (lockStoreOf entries) none lim (some 2) =
          .ok l.reverse := by
  obtain ⟨hsort, hall⟩ := wfLockStore_parts (wf_lockStoreOf entries hamt)
  have hlen : (lockStoreOf entries).length ≤
      (lim.getD DEFAULT_LIMIT).min MAX_LIMIT :=
    le_trans (lockStoreOf_length entries) hcount
  have hdec : ∀ e ∈ lockStoreOf entries, decodeLock e = .ok (decodedEntry e) :=
    fun e he => decodeLock_ok (hall e he).1 (hall e he).2
  refine ⟨(lockStoreOf entries).map decodedEntry, ?_, ?_, ?_⟩
  · have h1 : lockRange (lockStoreOf entries) none ScanOrder.Ascending =
        lockStoreOf entries := by
      simp [lockRange, calc_range_start, bRange_all]
    have hord : orderTryFrom ((some (1 : Int)).getD 1) =
        .ok ScanOrder.Ascending := by decide
    simp only [read_user_lock_info, hord]
    rw [h1, List.take_of_length_le hlen,
      collectExcept_map decodeLock decodedEntry _ hdec]
  · exact sorted_decoded_chain hsort (fun e he => (hall e he).1)
  · have h2 : lockRange (lockStoreOf entries) none ScanOrder.Descending =
        (lockStoreOf entries).reverse := by
      simp [lockRange, bRange_all_desc]
    have hdec' : ∀ e ∈ (lockStoreOf entries).reverse,
        decodeLock e = .ok (decodedEntry e) :=
      fun e he => hdec e (List.mem_reverse.mp he)
    have hord : orderTryFrom ((some (2 : Int)).getD 1) =
        .ok ScanOrder.Descending := by decide
    simp only [read_user_lock_info, hord]
    rw [h2, List.take_of_length_le (by simpa using hlen),
      collectExcept_map decodeLock decodedEntry _ hdec',
      List.map_reverse]

/-- Witness for C7: inserting timestamps 20 then 10 with default limit. -/
theorem claim_C7_witness :
    ([(20, 7), (10, 5)] : List (Nat × Nat)).Pairwise
        (fun a b => a.1 ≠ b.1) ∧
    (∀ e ∈ ([(20, 7), (10, 5)] : List (Nat × Nat)), e.1 < 2 ^ 64) ∧
    (∀ e ∈ ([(20, 7), (10, 5)] : List (Nat × Nat)), e.2 < U128MOD) ∧
    (∃ l, read_user_lock_info (lockStoreOf [(20, 7), (10, 5)]) none none
          (some 1) = .ok l
      ∧ List.Chain' (fun a b => a.unlock_time < b.unlock_time) l
      ∧ read_user_lock_info (lockStoreOf [(20, 7), (10, 5)]) none none
          (some 2) = .ok l.reverse) :=
  ⟨by decide, by decide, by decide,
    claim_C7 [(20, 7), (10, 5)] (by decide) (by decide) (by decide) none
      (by decide)⟩

/-- C8: registering a staker twice leaves the registry listing it exactly
once (and the second registration is a no-op on the stored bucket);
removing an unregistered staker signals nothing and leaves the bucket
unchanged. -/
theorem claim_C8 (s : StakerStore) (staker : Bytes)
    (hs : sortedStore s = true) :
    stakersAdd (stakersAdd s staker) staker = stakersAdd s staker
    ∧ (stakersList (stakersAdd (stakersAdd s staker) staker)).count staker
        = 1
    ∧ (staker ∉ stakersList s → stakersRemove s staker = s) := by
  refine ⟨bSave_idem s staker true, ?_, ?_⟩
  · rw [stakersAdd, stakersAdd, bSave_idem, stakersList, bRange_all,
      List.count, List.countP_map, List.countP_eq_length_filter]
    have : (fun (e : Bytes × Bool) => e.1 == staker) =
        ((fun k => k == staker) ∘ Prod.fst) := rfl
    rw [← this, bSave_filter_key hs staker true]
    rfl
  · intro hnot
    rw [stakersRemove, bRemove]
    apply List.filter_eq_self.mpr
    intro e he
    have : e.1 ≠ staker := by
      intro hc
      apply hnot
      rw [stakersList, bRange_all]
      exact hc ▸ List.mem_map.mpr ⟨e, he, rfl⟩
    simp [this]

/-- Witness for C8: registering staker `[5]` twice next to `[3]`; `[5]`
is also absent from the original registry, so removing it there is a
no-op. -/
theorem claim_C8_witness :
    stakersAdd (stakersAdd [([3], true)] [5]) [5] =
      stakersAdd [([3], true)] [5]
    ∧ (stakersList (stakersAdd (stakersAdd [([3], true)] [5]) [5])).count [5]
        = 1
    ∧ ([5] ∉ stakersList [([3], true)] →
        stakersRemove [([3], true)] [5] = [([3], true)]) :=
  claim_C8 [([3], true)] [5] (by decide)

/-- C9: any order code other than 1 (ascending) and 2 (descending) makes
`read_user_lock_info` signal a malformed-request error — no entries are
returned. -/
theorem claim_C9 (s : LockStore) (sa : Option Nat) (lim : Option Nat)
    (o : Int) (h1 : o ≠ 1) (h2 : o ≠ 2) :
    read_user_lock_info s sa lim (some o) = .error orderErrMsg := by
  simp [read_user_lock_info, orderTryFrom, h1, h2]

/-- Witness for C9: order code 3 on the example bucket. -/
theorem claim_C9_witness :
    (3 : Int) ≠ 1 ∧ (3 : Int) ≠ 2 ∧
    read_user_lock_info exampleStore none none (some 3) =
      .error orderErrMsg :=
  ⟨by decide, by decide,
    claim_C9 exampleStore none none 3 (by decide) (by decide)⟩

/-- C10: omitting the order argument behaves exactly as requesting
ascending order (code 1): the unspecified order defaults to ascending. -/
theorem claim_C10 (s : LockStore) (sa : Option Nat) (lim : Option Nat) :
    read_user_lock_info s sa lim none =
      read_user_lock_info s sa lim (some 1) := rfl
